import Mathlib

/-!
Verification of the obsidian-ai-transcriber audio pipeline.

The definitions below are shallow embeddings of the TypeScript sources:
* `src/services/recorder.ts` — `TranscriberService.preprocess` (silence
  normalization and chunking), `TranscriberService.cleanupRepetitiveCharacters`,
  `ConcurrencyLimiter`, transcript assembly, and `RecorderService` timing.
* `src/utils/retry.ts` — `withRetry`.

PCM samples are modelled as rationals (the code only compares `Math.abs(x)`
against the constant `0.01`, so exact rational arithmetic captures the
control flow faithfully).  Strings seen by the repetition-cleanup regex are
modelled as lists of UTF-16 code units (JavaScript string semantics).
-/

namespace AIT

/-! ### Silence normalizer (TranscriberService.preprocess, first half) -/

/-- `TARGET_SAMPLE_RATE` from `preprocess`. -/
def TARGET_SAMPLE_RATE : Nat := 16000

/-- `MIN_SILENCE_TRIM_SAMPLES = Math.floor(2 * 16000)`. -/
def MIN_SILENCE_TRIM_SAMPLES : Nat := 2 * TARGET_SAMPLE_RATE

/-- `generateSilence(sampleRate, durationSeconds)`: a `Float32Array` of
`Math.floor(sampleRate * durationSeconds)` zeros. -/
def generateSilence (sampleRate durationSeconds : Nat) : List ℚ :=
  List.replicate (sampleRate * durationSeconds) 0

/-- `replacementSilence = generateSilence(16000, 1)`. -/
def replacementSilence : List ℚ := generateSilence TARGET_SAMPLE_RATE 1

/-- The silence test `Math.abs(rawData[i]) <= SILENCE_THRESHOLD` with
`SILENCE_THRESHOLD = 0.01`. -/
def isSilent (x : ℚ) : Bool := |x| ≤ 1/100

/-- One iteration of the first pass of `preprocess`'s silence loop: state is
`(processedLength, currentSilentCount)`. -/
def pass1Step (st : Nat × Nat) (x : ℚ) : Nat × Nat :=
  if isSilent x then (st.1, st.2 + 1)
  else
    ((if MIN_SILENCE_TRIM_SAMPLES ≤ st.2 then st.1 + replacementSilence.length
      else st.1 + st.2) + 1, 0)

/-- First pass of `preprocess`: computes `processedLength`, including the
trailing-silence fixup after the loop. -/
def computeProcessedLength (l : List ℚ) : Nat :=
  let st := l.foldl pass1Step (0, 0)
  if MIN_SILENCE_TRIM_SAMPLES ≤ st.2 then st.1 + replacementSilence.length
  else st.1 + st.2

/-- One iteration of the second pass: state is `(data written so far, pending
silence run)`; `writeIndex` is the length of the first component. -/
def pass2Step (st : List ℚ × List ℚ) (x : ℚ) : List ℚ × List ℚ :=
  if isSilent x then (st.1, st.2 ++ [x])
  else
    (st.1 ++ (if MIN_SILENCE_TRIM_SAMPLES ≤ st.2.length then replacementSilence
              else st.2) ++ [x], [])

/-- Second pass of `preprocess`: the silence-normalized sample buffer
(including the trailing-silence fixup). -/
def normalizeSilence (l : List ℚ) : List ℚ :=
  let st := l.foldl pass2Step ([], [])
  st.1 ++ (if MIN_SILENCE_TRIM_SAMPLES ≤ st.2.length then replacementSilence
           else st.2)

/-- Replacement rule for one maximal silence run, as the code applies it. -/
def replaceRun (r : List ℚ) : List ℚ :=
  if MIN_SILENCE_TRIM_SAMPLES ≤ r.length then replacementSilence else r

/-- Run-structured restatement of the normalizer, used to relate the two
passes to the spec's per-run formula. -/
def normSpec (l : List ℚ) : List ℚ :=
  match l with
  | [] => []
  | x :: rest =>
    if isSilent x then
      replaceRun (x :: rest.takeWhile isSilent) ++ normSpec (rest.dropWhile isSilent)
    else
      x :: normSpec rest
termination_by l.length
decreasing_by
  · simp only [List.length_cons]
    exact Nat.lt_succ_of_le (List.dropWhile_sublist isSilent).length_le
  · simp

/-- The spec's first-pass formula: sum over maximal silence runs of (original
length if shorter than the trim threshold, else the replacement length), plus
the count of non-silent samples. -/
def specLen (l : List ℚ) : Nat :=
  match l with
  | [] => 0
  | x :: rest =>
    if isSilent x then
      (if MIN_SILENCE_TRIM_SAMPLES ≤ (x :: rest.takeWhile isSilent).length
       then replacementSilence.length
       else (x :: rest.takeWhile isSilent).length)
        + specLen (rest.dropWhile isSilent)
    else
      1 + specLen rest
termination_by l.length
decreasing_by
  · simp only [List.length_cons]
    exact Nat.lt_succ_of_le (List.dropWhile_sublist isSilent).length_le
  · simp

lemma replacementSilence_length : replacementSilence.length = 16000 := by
  rw [replacementSilence, generateSilence, List.length_replicate, TARGET_SAMPLE_RATE]

lemma takeWhile_all {α : Type} {p : α → Bool} {l : List α} (h : ∀ x ∈ l, p x) :
    l.takeWhile p = l := by
  induction l with
  | nil => rfl
  | cons x rest ih =>
    rw [List.takeWhile_cons_of_pos (h x (by simp))]
    simp only [List.cons.injEq, true_and]
    exact ih fun y hy => h y (by simp [hy])

lemma dropWhile_all {α : Type} {p : α → Bool} {l : List α} (h : ∀ x ∈ l, p x) :
    l.dropWhile p = [] := by
  induction l with
  | nil => rfl
  | cons x rest ih =>
    rw [List.dropWhile_cons_of_pos (h x (by simp))]
    exact ih fun y hy => h y (by simp [hy])

lemma normSpec_nil : normSpec [] = [] := by rw [normSpec.eq_def]

lemma normSpec_cons_pos {x : ℚ} {rest : List ℚ} (h : isSilent x) :
    normSpec (x :: rest) =
      replaceRun (x :: rest.takeWhile isSilent) ++ normSpec (rest.dropWhile isSilent) := by
  rw [normSpec.eq_def]; simp [h]

lemma normSpec_cons_neg {x : ℚ} {rest : List ℚ} (h : ¬ isSilent x) :
    normSpec (x :: rest) = x :: normSpec rest := by
  rw [normSpec.eq_def]; simp [h]

lemma normSpec_all_silent {p : List ℚ} (h : ∀ x ∈ p, isSilent x) :
    normSpec p = replaceRun p := by
  cases p with
  | nil =>
    rw [normSpec_nil, replaceRun]
    simp [MIN_SILENCE_TRIM_SAMPLES, TARGET_SAMPLE_RATE]
  | cons x rest =>
    rw [normSpec_cons_pos (h x (by simp)),
      takeWhile_all (fun y hy => h y (by simp [hy])),
      dropWhile_all (fun y hy => h y (by simp [hy])), normSpec_nil, List.append_nil]

lemma normSpec_append_silent_run {pending : List ℚ} {y : ℚ} {t : List ℚ}
    (hp : ∀ x ∈ pending, isSilent x) (hy : ¬ isSilent y) :
    normSpec (pending ++ y :: t) = replaceRun pending ++ y :: normSpec t := by
  cases pending with
  | nil =>
    rw [List.nil_append, normSpec_cons_neg hy, replaceRun]
    simp [MIN_SILENCE_TRIM_SAMPLES, TARGET_SAMPLE_RATE]
  | cons p ps =>
    rw [List.cons_append, normSpec_cons_pos (hp p (by simp)),
      List.takeWhile_append_of_pos (fun y hy => hp y (by simp [hy])),
      List.dropWhile_append_of_pos (fun y hy => hp y (by simp [hy])),
      List.takeWhile_cons_of_neg hy, List.dropWhile_cons_of_neg hy,
      List.append_nil, normSpec_cons_neg hy]

lemma pass2_foldl_spec :
    ∀ (l out pending : List ℚ), (∀ x ∈ pending, isSilent x) →
      (l.foldl pass2Step (out, pending)).1
          ++ replaceRun (l.foldl pass2Step (out, pending)).2
        = out ++ normSpec (pending ++ l) := by
  intro l
  induction l with
  | nil =>
    intro out pending hp
    simpa using (normSpec_all_silent hp).symm
  | cons y t ih =>
    intro out pending hp
    by_cases hy : isSilent y
    · have : pass2Step (out, pending) y = (out, pending ++ [y]) := by
        simp [pass2Step, hy]
      rw [List.foldl_cons, this,
        ih out (pending ++ [y]) (by intro x hx; rcases List.mem_append.1 hx with h | h
                                    · exact hp x h
                                    · simp at h; simpa [h] using hy)]
      simp
    · have : pass2Step (out, pending) y = (out ++ replaceRun pending ++ [y], []) := by
        simp [pass2Step, hy, replaceRun]
      rw [List.foldl_cons, this, ih _ [] (by simp),
        normSpec_append_silent_run hp hy]
      simp

lemma normalizeSilence_eq_normSpec (l : List ℚ) : normalizeSilence l = normSpec l := by
  have h := pass2_foldl_spec l [] [] (by simp)
  simpa [normalizeSilence, replaceRun] using h

lemma pass1_mirrors_pass2 :
    ∀ (l out pending : List ℚ),
      l.foldl pass1Step (out.length, pending.length)
        = ((l.foldl pass2Step (out, pending)).1.length,
           (l.foldl pass2Step (out, pending)).2.length) := by
  intro l
  induction l with
  | nil => intro out pending; rfl
  | cons y t ih =>
    intro out pending
    by_cases hy : isSilent y
    · have h1 : pass1Step (out.length, pending.length) y = (out.length, pending.length + 1) := by
        simp [pass1Step, hy]
      have h2 : pass2Step (out, pending) y = (out, pending ++ [y]) := by
        simp [pass2Step, hy]
      rw [List.foldl_cons, List.foldl_cons, h1, h2]
      have := ih out (pending ++ [y])
      simpa using this
    · have h2 : pass2Step (out, pending) y = (out ++ replaceRun pending ++ [y], []) := by
        simp [pass2Step, hy, replaceRun]
      have h1 : pass1Step (out.length, pending.length) y
          = ((out ++ replaceRun pending ++ [y]).length, ([] : List ℚ).length) := by
        by_cases hmin : MIN_SILENCE_TRIM_SAMPLES ≤ pending.length
        · simp [pass1Step, hy, hmin, replaceRun]; omega
        · simp [pass1Step, hy, hmin, replaceRun]; omega
      rw [List.foldl_cons, List.foldl_cons, h1, h2, ih]

lemma computeProcessedLength_eq (l : List ℚ) :
    computeProcessedLength l = (normalizeSilence l).length := by
  have h := pass1_mirrors_pass2 l [] []
  simp only [List.length_nil] at h
  rw [computeProcessedLength, normalizeSilence]
  rw [h]
  by_cases hmin : MIN_SILENCE_TRIM_SAMPLES ≤ (l.foldl pass2Step ([], [])).2.length
  · simp [hmin]
  · simp [hmin]

lemma specLen_eq_length (l : List ℚ) : specLen l = (normSpec l).length := by
  induction l using normSpec.induct with
  | case1 => rw [specLen.eq_def, normSpec_nil]; rfl
  | case2 x rest hx ih =>
    rw [normSpec_cons_pos hx, specLen.eq_def]
    simp only [hx, if_true, List.length_append, List.length_cons, ih, replaceRun]
    by_cases hmin : MIN_SILENCE_TRIM_SAMPLES ≤ (rest.takeWhile isSilent).length + 1
    · simp [hmin]
    · simp [hmin]
  | case3 x rest hx ih =>
    rw [normSpec_cons_neg hx, specLen.eq_def]
    simp [hx, ih, Nat.add_comm]

/-- Claim C1: for every mono input buffer, the first pass of the silence
normalizer computes an output length equal to the sum over each maximal
silence run of (its original length if shorter than 32000 samples, else the
fixed 16000-sample replacement length) plus the count of non-silent samples
(`specLen`), and the second pass writes exactly that many samples (the final
write index is the length of the produced buffer), trailing silence included. -/
theorem silence_two_pass_length (l : List ℚ) :
    (normalizeSilence l).length = computeProcessedLength l
      ∧ computeProcessedLength l = specLen l := by
  refine ⟨(computeProcessedLength_eq l).symm, ?_⟩
  rw [computeProcessedLength_eq l, specLen_eq_length, normalizeSilence_eq_normSpec]

lemma isSilent_zero : isSilent 0 = true := by norm_num [isSilent]

lemma replaceRun_all_silent {r : List ℚ} (h : ∀ x ∈ r, isSilent x) :
    ∀ x ∈ replaceRun r, isSilent x := by
  intro x hx
  rw [replaceRun] at hx
  by_cases hmin : MIN_SILENCE_TRIM_SAMPLES ≤ r.length
  · rw [if_pos hmin] at hx
    have : x = 0 := (List.eq_of_mem_replicate (by simpa [replacementSilence, generateSilence] using hx))
    rw [this]; exact isSilent_zero
  · rw [if_neg hmin] at hx
    exact h x hx

lemma replaceRun_length_lt (r : List ℚ) :
    ¬ MIN_SILENCE_TRIM_SAMPLES ≤ (replaceRun r).length := by
  rw [replaceRun]
  by_cases hmin : MIN_SILENCE_TRIM_SAMPLES ≤ r.length
  · rw [if_pos hmin, replacementSilence_length]
    simp [MIN_SILENCE_TRIM_SAMPLES, TARGET_SAMPLE_RATE]
  · rw [if_neg hmin]; exact hmin

lemma replaceRun_short {r : List ℚ} (h : ¬ MIN_SILENCE_TRIM_SAMPLES ≤ r.length) :
    replaceRun r = r := by rw [replaceRun, if_neg h]

lemma dropWhile_head_not {α : Type} {p : α → Bool} {l : List α} {y : α} {t : List α}
    (h : l.dropWhile p = y :: t) : ¬ p y := by
  have hh := List.head?_dropWhile_not p l
  rw [h] at hh
  simpa using hh

lemma normSpec_silentblock_append {b : List ℚ} (hb : ∀ z ∈ b, isSilent z)
    (hlen : ¬ MIN_SILENCE_TRIM_SAMPLES ≤ b.length) (u : List ℚ)
    (hu : u = [] ∨ ∃ y t, u = y :: t ∧ ¬ isSilent y) :
    normSpec (b ++ u) = b ++ normSpec u := by
  rcases hu with rfl | ⟨y, t, rfl, hy⟩
  · rw [List.append_nil, normSpec_nil, List.append_nil, normSpec_all_silent hb,
      replaceRun_short hlen]
  · rw [normSpec_append_silent_run hb hy, replaceRun_short hlen, normSpec_cons_neg hy]

lemma normSpec_idem (l : List ℚ) : normSpec (normSpec l) = normSpec l := by
  induction l using normSpec.induct with
  | case1 => rw [normSpec_nil, normSpec_nil]
  | case2 x rest hx ih =>
    rw [normSpec_cons_pos hx]
    have hruns : ∀ z ∈ x :: rest.takeWhile isSilent, isSilent z := by
      intro z hz
      rcases List.mem_cons.1 hz with rfl | hz'
      · exact hx
      · exact List.mem_takeWhile_imp hz'
    have hb : ∀ z ∈ replaceRun (x :: rest.takeWhile isSilent), isSilent z :=
      replaceRun_all_silent hruns
    have hblen := replaceRun_length_lt (x :: rest.takeWhile isSilent)
    cases hrest2 : rest.dropWhile isSilent with
    | nil =>
      rw [normSpec_nil, normSpec_silentblock_append hb hblen [] (Or.inl rfl), normSpec_nil]
    | cons y t =>
      have hy : ¬ isSilent y := dropWhile_head_not hrest2
      rw [hrest2] at ih
      rw [normSpec_cons_neg hy,
        normSpec_silentblock_append hb hblen (y :: normSpec t)
          (Or.inr ⟨y, normSpec t, rfl, hy⟩), ← normSpec_cons_neg hy, ih]
  | case3 x rest hx ih =>
    rw [normSpec_cons_neg hx, normSpec_cons_neg hx, ih]

/-- Claim C8: silence normalization is idempotent — applying the normalizer to
its own output returns that output unchanged (every silence run in the output
is strictly shorter than the 32000-sample trim threshold, since the
replacement block is only 16000 samples). -/
theorem silence_normalize_idempotent (l : List ℚ) :
    normalizeSilence (normalizeSilence l) = normalizeSilence l := by
  rw [normalizeSilence_eq_normSpec, normalizeSilence_eq_normSpec, normSpec_idem]

/-! ### Chunk segmenter (TranscriberService.preprocess, chunking loop) -/

/-- `OVERLAP_SAMPLES = Math.floor(2 * 16000)`. -/
def OVERLAP_SAMPLES : Nat := 2 * TARGET_SAMPLE_RATE

/-- `MIN_CHUNK_SAMPLES = Math.floor(2 * 16000)`. -/
def MIN_CHUNK_SAMPLES : Nat := 2 * TARGET_SAMPLE_RATE

/-- `chunkStartSample`: `startSample`, pulled back by `OVERLAP_SAMPLES`
(`Math.max(0, ...)` is truncated subtraction) for every chunk after the
first emitted one (`chunkIndex > 0`). -/
def chunkStartOf (startSample chunkIndex : Nat) : Nat :=
  if 0 < chunkIndex then startSample - OVERLAP_SAMPLES else startSample

/-- The chunking `while (startSample < totalSamples)` loop of `preprocess`,
with an explicit fuel bound on the iteration count.  Each iteration advances
`startSample` to `endSample = min(startSample + maxSamples, totalSamples)`,
which grows by at least one when `maxSamples ≥ 1`, so fuel `totalSamples`
makes the embedding exact for every positive `maxSamples` (the code would
loop forever for `maxSamples = 0`).  Emitted entries are the
`(chunkStartSample, endSample)` ranges passed to `bufferToWav`. -/
def chunkStep (maxSamples totalSamples : Nat) :
    Nat → Nat → Nat → List (Nat × Nat)
  | 0, _, _ => []
  | fuel + 1, startSample, chunkIndex =>
    if startSample < totalSamples then
      if MIN_CHUNK_SAMPLES ≤
          min (startSample + maxSamples) totalSamples - chunkStartOf startSample chunkIndex then
        (chunkStartOf startSample chunkIndex, min (startSample + maxSamples) totalSamples)
          :: chunkStep maxSamples totalSamples fuel
              (min (startSample + maxSamples) totalSamples) (chunkIndex + 1)
      else
        chunkStep maxSamples totalSamples fuel
          (min (startSample + maxSamples) totalSamples) chunkIndex
    else []

/-- All chunks emitted by the chunking loop of `preprocess` on a normalized
buffer of `totalSamples` samples. -/
def emittedChunks (maxSamples totalSamples : Nat) : List (Nat × Nat) :=
  chunkStep maxSamples totalSamples totalSamples 0 0

/-- Sample index `i` lies in one of the emitted `[startSample, endSample)`
ranges. -/
def coveredBy (cs : List (Nat × Nat)) (i : Nat) : Prop :=
  ∃ c ∈ cs, c.1 ≤ i ∧ i < c.2

instance (cs : List (Nat × Nat)) (i : Nat) : Decidable (coveredBy cs i) :=
  List.decidableBEx _ cs

lemma chunkStep_min_length (M T : Nat) :
    ∀ (fuel start ci : Nat), ∀ c ∈ chunkStep M T fuel start ci,
      MIN_CHUNK_SAMPLES ≤ c.2 - c.1 := by
  intro fuel
  induction fuel with
  | zero => intro start ci c hc; simp [chunkStep] at hc
  | succ fuel ih =>
    intro start ci c hc
    rw [chunkStep] at hc
    by_cases hlt : start < T
    · rw [if_pos hlt] at hc
      by_cases hg : MIN_CHUNK_SAMPLES ≤ min (start + M) T - chunkStartOf start ci
      · rw [if_pos hg] at hc
        rcases List.mem_cons.1 hc with rfl | hc'
        · exact hg
        · exact ih _ _ c hc'
      · rw [if_neg hg] at hc
        exact ih _ _ c hc
    · rw [if_neg hlt] at hc
      exact absurd hc (List.not_mem_nil c)

lemma chunkStep_covers (M T : Nat) (hM : MIN_CHUNK_SAMPLES ≤ M) :
    ∀ (fuel start ci : Nat), 1 ≤ ci → OVERLAP_SAMPLES ≤ start → T - start ≤ fuel →
      ∀ i, start ≤ i → i < T → coveredBy (chunkStep M T fuel start ci) i := by
  intro fuel
  induction fuel with
  | zero => intro start ci _ _ hfuel i hsi hiT; omega
  | succ fuel ih =>
    intro start ci hci hos hfuel i hsi hiT
    have hlt : start < T := by omega
    have hend : start + 1 ≤ min (start + M) T := by
      have hM1 : 1 ≤ M := by
        have : (0 : Nat) < MIN_CHUNK_SAMPLES := by
          simp [MIN_CHUNK_SAMPLES, TARGET_SAMPLE_RATE]
        omega
      omega
    have hcs : chunkStartOf start ci = start - OVERLAP_SAMPLES := by
      rw [chunkStartOf, if_pos (by omega)]
    have hg : MIN_CHUNK_SAMPLES ≤ min (start + M) T - chunkStartOf start ci := by
      rw [hcs]
      have : MIN_CHUNK_SAMPLES = OVERLAP_SAMPLES := rfl
      omega
    rw [chunkStep, if_pos hlt, if_pos hg]
    by_cases hie : i < min (start + M) T
    · exact ⟨(chunkStartOf start ci, min (start + M) T), List.mem_cons_self _ _,
        by rw [hcs]; omega, hie⟩
    · have hcov := ih (min (start + M) T) (ci + 1) (by omega) (by omega) (by omega) i
        (by omega) hiT
      obtain ⟨c, hc, hc2⟩ := hcov
      exact ⟨c, List.mem_cons_of_mem _ hc, hc2⟩

lemma chunkStep_degenerate (M T : Nat) (h : min M T < MIN_CHUNK_SAMPLES) :
    ∀ fuel start, chunkStep M T fuel start 0 = [] := by
  intro fuel
  induction fuel with
  | zero => intro start; rfl
  | succ fuel ih =>
    intro start
    rw [chunkStep]
    by_cases hlt : start < T
    · have hcs : chunkStartOf start 0 = start := by rw [chunkStartOf, if_neg (by omega)]
      have hg : ¬ MIN_CHUNK_SAMPLES ≤ min (start + M) T - chunkStartOf start 0 := by
        rw [hcs]; omega
      rw [if_pos hlt, if_neg hg, ih]
    · rw [if_neg hlt]

lemma emittedChunks_covers (M T : Nat) (hM : MIN_CHUNK_SAMPLES ≤ M)
    (hT : MIN_CHUNK_SAMPLES ≤ T) :
    ∀ i, i < T → coveredBy (emittedChunks M T) i := by
  intro i hiT
  have hMv : MIN_CHUNK_SAMPLES = 32000 := by decide
  have hOv : OVERLAP_SAMPLES = 32000 := by decide
  obtain ⟨T', rfl⟩ : ∃ T', T = T' + 1 := ⟨T - 1, by omega⟩
  rw [emittedChunks, chunkStep]
  have hlt : (0 : Nat) < T' + 1 := by omega
  have hcs : chunkStartOf 0 0 = 0 := by rw [chunkStartOf]; simp
  have hg : MIN_CHUNK_SAMPLES ≤ min (0 + M) (T' + 1) - chunkStartOf 0 0 := by
    rw [hcs]; omega
  rw [if_pos hlt, if_pos hg]
  by_cases hie : i < min (0 + M) (T' + 1)
  · exact ⟨(chunkStartOf 0 0, min (0 + M) (T' + 1)), List.mem_cons_self _ _,
      by rw [hcs]; omega, hie⟩
  · have hO : OVERLAP_SAMPLES = MIN_CHUNK_SAMPLES := rfl
    have hcov := chunkStep_covers M (T' + 1) hM T' (min (0 + M) (T' + 1)) 1
      (by omega) (by omega) (by omega) i (by omega) hiT
    obtain ⟨c, hc, hc2⟩ := hcov
    exact ⟨c, List.mem_cons_of_mem _ hc, hc2⟩

/-- Claim C2, counterexample: on a (normalized) buffer of a single sample with
the default 300 s chunk size, the single candidate chunk is shorter than the
2 s minimum and is dropped, so no emitted chunk covers sample index 0 even
though 0 is a valid sample index of the buffer. -/
theorem chunk_coverage_counterexample :
    (0 : Nat) < 1 ∧ ¬ coveredBy (emittedChunks (300 * TARGET_SAMPLE_RATE) 1) 0 := by
  constructor
  · decide
  · decide

/-- Claim C2, amended: no emitted chunk is ever shorter than the 32000-sample
minimum chunk length (short candidates are dropped, unconditionally); and
whenever `maxChunkSamples` is at least the minimum chunk length and the
normalized buffer is empty or at least 32000 samples long, the emitted
chunks' `[startSample, endSample)` ranges cover every sample index of the
buffer at least once. -/
theorem chunk_coverage_amended :
    (∀ M T fuel start ci, ∀ c ∈ chunkStep M T fuel start ci,
        MIN_CHUNK_SAMPLES ≤ c.2 - c.1)
    ∧ (∀ M T, MIN_CHUNK_SAMPLES ≤ M → (T = 0 ∨ MIN_CHUNK_SAMPLES ≤ T) →
        ∀ i, i < T → coveredBy (emittedChunks M T) i) := by
  refine ⟨fun M T fuel start ci c hc => chunkStep_min_length M T fuel start ci c hc,
    fun M T hM hT i hi => ?_⟩
  rcases hT with rfl | hT
  · omega
  · exact emittedChunks_covers M T hM hT i hi

theorem chunk_coverage_amended_witness :
    MIN_CHUNK_SAMPLES ≤ (32000 : Nat) - 0
      ∧ ((77 : Nat) < 32000 ∧ coveredBy (emittedChunks 32000 32000) 77) := by
  refine ⟨?_, by decide, ?_⟩
  · exact chunk_coverage_amended.1 32000 32000 32000 0 0 (0, 32000) (by decide)
  · exact chunk_coverage_amended.2 32000 32000 (by decide) (Or.inr (by decide)) 77 (by decide)

/-- Relation between two consecutive emitted chunks `p` then `q`: the end
boundary advances by one non-overlapped stride of `maxSamples` (capped at the
buffer length), the start boundary is the stride boundary (the previous end)
pulled back by `OVERLAP_SAMPLES`, and the chunks truly overlap whenever that
stride boundary exceeds `OVERLAP_SAMPLES`. -/
def strideRel (M T : Nat) (p q : Nat × Nat) : Prop :=
  q.1 = p.2 - OVERLAP_SAMPLES ∧ q.2 = min (p.2 + M) T
    ∧ (OVERLAP_SAMPLES < p.2 → q.1 < p.2)

instance (M T : Nat) (p q : Nat × Nat) : Decidable (strideRel M T p q) := by
  rw [strideRel]; infer_instance

/-- Closed form for the tail of the chunking loop (chunkIndex ≥ 1, every
candidate long enough): one chunk per stride until the buffer is exhausted. -/
def chunksFrom (M T : Nat) (start : Nat) : List (Nat × Nat) :=
  if h : start < T ∧ 0 < M then
    (start - OVERLAP_SAMPLES, min (start + M) T) :: chunksFrom M T (min (start + M) T)
  else []
termination_by T - start
decreasing_by omega

lemma chunksFrom_pos {M T start : Nat} (h : start < T ∧ 0 < M) :
    chunksFrom M T start =
      (start - OVERLAP_SAMPLES, min (start + M) T)
        :: chunksFrom M T (min (start + M) T) := by
  rw [chunksFrom]; rw [dif_pos h]

lemma chunksFrom_neg {M T start : Nat} (h : ¬ (start < T ∧ 0 < M)) :
    chunksFrom M T start = [] := by
  rw [chunksFrom]; rw [dif_neg h]

lemma chunkStep_eq_chunksFrom (M T : Nat) (hM : MIN_CHUNK_SAMPLES ≤ M) :
    ∀ fuel start ci, 1 ≤ ci → OVERLAP_SAMPLES ≤ start → T - start ≤ fuel →
      chunkStep M T fuel start ci = chunksFrom M T start := by
  have hMv : MIN_CHUNK_SAMPLES = 32000 := by decide
  have hOv : OVERLAP_SAMPLES = 32000 := by decide
  intro fuel
  induction fuel with
  | zero =>
    intro start ci hci hos hfuel
    rw [chunksFrom_neg (by omega)]
    rfl
  | succ fuel ih =>
    intro start ci hci hos hfuel
    by_cases hlt : start < T
    · have hcs : chunkStartOf start ci = start - OVERLAP_SAMPLES := by
        rw [chunkStartOf, if_pos (by omega)]
      have hg : MIN_CHUNK_SAMPLES ≤ min (start + M) T - chunkStartOf start ci := by
        rw [hcs]; omega
      rw [chunkStep, if_pos hlt, if_pos hg, hcs,
        chunksFrom_pos ⟨hlt, by omega⟩,
        ih (min (start + M) T) (ci + 1) (by omega) (by omega) (by omega)]
    · rw [chunksFrom_neg (by omega), chunkStep, if_neg hlt]

lemma emittedChunks_closed_form (M T : Nat) (hM : MIN_CHUNK_SAMPLES ≤ M)
    (hT : MIN_CHUNK_SAMPLES ≤ T) :
    emittedChunks M T = (0, min M T) :: chunksFrom M T (min M T) := by
  have hMv : MIN_CHUNK_SAMPLES = 32000 := by decide
  have hOv : OVERLAP_SAMPLES = 32000 := by decide
  obtain ⟨T', rfl⟩ : ∃ T', T = T' + 1 := ⟨T - 1, by omega⟩
  rw [emittedChunks, chunkStep]
  have hlt : (0 : Nat) < T' + 1 := by omega
  have hcs : chunkStartOf 0 0 = 0 := by rw [chunkStartOf]; simp
  have hg : MIN_CHUNK_SAMPLES ≤ min (0 + M) (T' + 1) - chunkStartOf 0 0 := by
    rw [hcs]; omega
  rw [if_pos hlt, if_pos hg, hcs,
    chunkStep_eq_chunksFrom M (T' + 1) hM T' (min (0 + M) (T' + 1)) 1
      (by omega) (by omega) (by omega)]
  have : (0 : Nat) + M = M := by omega
  rw [this]

lemma chunksFrom_head (M T start : Nat) :
    ∀ q ∈ (chunksFrom M T start).head?,
      q.1 = start - OVERLAP_SAMPLES ∧ q.2 = min (start + M) T := by
  intro q hq
  by_cases h : start < T ∧ 0 < M
  · rw [chunksFrom_pos h] at hq
    have hq2 : q = (start - OVERLAP_SAMPLES, min (start + M) T) := by
      simpa [List.head?_cons, eq_comm] using hq
    rw [hq2]
    exact ⟨rfl, rfl⟩
  · rw [chunksFrom_neg h] at hq
    simp at hq

lemma chunksFrom_chain (M T : Nat) :
    ∀ start, List.Chain' (strideRel M T) (chunksFrom M T start) := by
  have hOv : OVERLAP_SAMPLES = 32000 := by decide
  intro start
  induction start using chunksFrom.induct M T with
  | case1 start h ih =>
    rw [chunksFrom_pos h]
    rw [List.chain'_cons']
    refine ⟨?_, ih⟩
    intro q hq
    obtain ⟨h1, h2⟩ := chunksFrom_head M T (min (start + M) T) q hq
    exact ⟨h1, h2, fun hgt => by omega⟩
  | case2 start h =>
    rw [chunksFrom_neg h]
    exact List.chain'_nil

lemma chunksFrom_last (M T : Nat) :
    ∀ start (p : Nat × Nat), start ≤ T → 0 < M → p.2 = start →
      ∀ q ∈ (p :: chunksFrom M T start).getLast?, q.2 = T := by
  intro start
  induction start using chunksFrom.induct M T with
  | case1 start h ih =>
    intro p hsT hM hp q hq
    rw [chunksFrom_pos h, List.getLast?_cons_cons] at hq
    exact ih (start - OVERLAP_SAMPLES, min (start + M) T) (by omega) h.2 rfl q hq
  | case2 start h =>
    intro p hsT hM hp q hq
    rw [chunksFrom_neg h] at hq
    have hqp : q = p := by simpa [eq_comm] using hq
    have hsTeq : start = T := by omega
    rw [hqp, hp, hsTeq]

/-- Claim C3: chunk end boundaries advance in non-overlapping strides of
`maxChunkSamples` — the first emitted chunk ends at `min(maxSamples, total)`,
each next chunk's end is the previous end advanced by one stride (capped at
the buffer length), and the last emitted chunk ends at the buffer length;
every chunk after the first starts at `max(0, strideBoundary − overlap)`, so
consecutive chunks truly overlap whenever the stride boundary exceeds
`overlapSamples`; the first chunk has no lead-in (start 0). -/
theorem chunk_stride_overlap (M T : Nat) (hM : 0 < M) :
    List.Chain' (strideRel M T) (emittedChunks M T)
      ∧ (∀ p ∈ (emittedChunks M T).head?, p.1 = 0 ∧ p.2 = min M T)
      ∧ (∀ p ∈ (emittedChunks M T).getLast?, p.2 = T) := by
  have hMv : MIN_CHUNK_SAMPLES = 32000 := by decide
  have hOv : OVERLAP_SAMPLES = 32000 := by decide
  by_cases hbig : MIN_CHUNK_SAMPLES ≤ M ∧ MIN_CHUNK_SAMPLES ≤ T
  · rw [emittedChunks_closed_form M T hbig.1 hbig.2]
    refine ⟨?_, ?_, ?_⟩
    · rw [List.chain'_cons']
      refine ⟨?_, chunksFrom_chain M T (min M T)⟩
      intro q hq
      obtain ⟨h1, h2⟩ := chunksFrom_head M T (min M T) q hq
      exact ⟨h1, h2, fun hgt => by omega⟩
    · intro p hp
      have hp2 : p = (0, min M T) := by
        simpa [List.head?_cons, eq_comm] using hp
      rw [hp2]
      exact ⟨rfl, rfl⟩
    · intro p hp
      exact chunksFrom_last M T (min M T) (0, min M T) (by omega) hM rfl p hp
  · have hdeg : emittedChunks M T = [] :=
      chunkStep_degenerate M T (by omega) T 0
    rw [hdeg]
    refine ⟨List.chain'_nil, ?_, ?_⟩ <;> intro p hp <;> simp at hp

theorem chunk_stride_overlap_witness :
    List.Chain' (strideRel 32000 33000) (emittedChunks 32000 33000)
      ∧ (∀ p ∈ (emittedChunks 32000 33000).head?, p.1 = 0 ∧ p.2 = min 32000 33000)
      ∧ (∀ p ∈ (emittedChunks 32000 33000).getLast?, p.2 = 33000) :=
  chunk_stride_overlap 32000 33000 (by decide)

/-! ### Repetition cleanup (TranscriberService.cleanupRepetitiveCharacters)

`cleanupRepetitiveCharacters(text, maxRepeats = 10)` runs the global regex
replace `text.replace(new RegExp(`(.)\\1\x7b$\x7bmaxRepeats\x7d,\x7d`, 'g'), '$1')`.
JavaScript strings are sequences of UTF-16 code units, so we model the input
as `List Nat`.  Without the `s` flag, `.` matches any single code unit except
the line terminators U+000A, U+000D, U+2028, U+2029; the backreference `\1`
repeats that same unit, and the greedy `\x7bmaxRepeats,\x7d` extends each match to
the whole maximal run.  The global replace therefore collapses every maximal
run of more than `maxRepeats` copies of the same non-terminator code unit to
a single copy and leaves everything else verbatim, which is what the scanner
below computes. -/

/-- JavaScript regex `.` (no `s` flag) fails exactly on the line terminators
U+000A, U+000D, U+2028, U+2029. -/
def isLineTerminator (u : Nat) : Bool :=
  u = 10 || u = 13 || u = 0x2028 || u = 0x2029

/-- What one maximal run of `n` copies of unit `u` becomes after the replace:
a single `u` if the regex matched it (non-terminator, longer than
`maxRepeats`), else the run verbatim. -/
def emitRun (maxRepeats u n : Nat) : List Nat :=
  if ¬ isLineTerminator u = true ∧ maxRepeats < n then [u] else List.replicate n u

/-- Run scanner realizing the global replace: `u` is the unit of the current
run and `n` its length so far. -/
def cleanupGo (maxRepeats : Nat) : Nat → Nat → List Nat → List Nat
  | u, n, [] => emitRun maxRepeats u n
  | u, n, x :: rest =>
    if x = u then cleanupGo maxRepeats u (n + 1) rest
    else emitRun maxRepeats u n ++ cleanupGo maxRepeats x 1 rest

/-- `cleanupRepetitiveCharacters(text, maxRepeats = 10)` (empty input is
returned unchanged before the regex runs). -/
def cleanupRepetitiveCharacters (maxRepeats : Nat) (s : List Nat) : List Nat :=
  match s with
  | [] => []
  | x :: rest => cleanupGo maxRepeats x 1 rest

/-- Decode a run-length encoding into the code-unit string it denotes. -/
def rleDecode : List (Nat × Nat) → List Nat
  | [] => []
  | (u, n) :: rest => List.replicate n u ++ rleDecode rest

/-- The collapse rule on one (unit, count) run. -/
def collapseRun (maxRepeats : Nat) (p : Nat × Nat) : Nat × Nat :=
  (p.1, if ¬ isLineTerminator p.1 = true ∧ maxRepeats < p.2 then 1 else p.2)

lemma emitRun_eq (maxRepeats u n : Nat) :
    emitRun maxRepeats u n
      = List.replicate (if ¬ isLineTerminator u = true ∧ maxRepeats < n then 1 else n) u := by
  by_cases h : ¬ isLineTerminator u = true ∧ maxRepeats < n
  · rw [emitRun, if_pos h, if_pos h]; rfl
  · rw [emitRun, if_neg h, if_neg h]

lemma cleanupGo_spec (maxRepeats : Nat) :
    ∀ (r : List (Nat × Nat)), (∀ p ∈ r, 1 ≤ p.2) →
      List.Chain' (fun p q : Nat × Nat => p.1 ≠ q.1) r →
      ∀ (u : Nat), (∀ q ∈ r.head?, q.1 ≠ u) →
      ∀ (k n : Nat),
        cleanupGo maxRepeats u n (List.replicate k u ++ rleDecode r)
          = emitRun maxRepeats u (n + k) ++ rleDecode (r.map (collapseRun maxRepeats)) := by
  intro r
  induction r with
  | nil =>
    intro _ _ u _ k
    induction k with
    | zero => intro n; simp [rleDecode, cleanupGo]
    | succ k ihk =>
      intro n
      rw [rleDecode, List.append_nil, List.replicate_succ, cleanupGo, if_pos rfl]
      have hk := ihk (n + 1)
      rw [rleDecode, List.append_nil] at hk
      rw [hk]
      have : n + 1 + k = n + (k + 1) := by omega
      rw [this]
  | cons p r' ih =>
    obtain ⟨v, m⟩ := p
    intro hpos hchain u hne k
    have hvu : v ≠ u := by
      have := hne (v, m) rfl
      simpa using this
    have hch := List.chain'_cons'.mp hchain
    have hne' : ∀ q ∈ r'.head?, q.1 ≠ v := fun q hq => (hch.1 q hq).symm
    have hpos' : ∀ q ∈ r', 1 ≤ q.2 := fun q hq => hpos q (List.mem_cons_of_mem _ hq)
    obtain ⟨m', rfl⟩ : ∃ m', m = m' + 1 := by
      have := hpos (v, m) (List.mem_cons_self _ _)
      exact ⟨m - 1, by omega⟩
    induction k with
    | zero =>
      intro n
      rw [List.replicate_zero, List.nil_append, rleDecode, List.replicate_succ,
        List.cons_append, cleanupGo, if_neg hvu,
        ih hpos' hch.2 v hne' m' 1]
      simp [rleDecode, collapseRun, emitRun_eq, Nat.one_add, List.append_assoc]
    | succ k ihk =>
      intro n
      rw [List.replicate_succ, List.cons_append, cleanupGo, if_pos rfl, ihk (n + 1)]
      have : n + 1 + k = n + (k + 1) := by omega
      rw [this]

/-- Claim C4, counterexample: a run of eleven U+000A (newline) characters —
more than `maxRepeats = 10` repetitions of the same single character — is
left completely unchanged instead of being collapsed to one character,
because `.` in the regex does not match line terminators. -/
theorem cleanup_counterexample :
    cleanupRepetitiveCharacters 10 (List.replicate 11 10) = List.replicate 11 10
      ∧ List.replicate 11 10 ≠ ([10] : List Nat) := by
  constructor
  · decide
  · decide

/-- Claim C4, amended: for every string presented by its maximal runs of
equal UTF-16 code units (positive counts, adjacent runs over distinct
units), the cleanup collapses exactly those runs of more than `maxRepeats`
copies of the same non-line-terminator code unit to a single copy, and
leaves every other run — runs of length at most `maxRepeats`, and
line-terminator runs of any length — unchanged.  (The repeated unit is a
UTF-16 code unit, not a character/grapheme: runs of U+000A/U+000D/U+2028/
U+2029 are never collapsed, and astral characters, being surrogate pairs,
never form same-unit runs at all.) -/
theorem cleanup_collapses_runs (maxRepeats : Nat) (r : List (Nat × Nat))
    (hpos : ∀ p ∈ r, 1 ≤ p.2)
    (hadj : List.Chain' (fun p q : Nat × Nat => p.1 ≠ q.1) r) :
    cleanupRepetitiveCharacters maxRepeats (rleDecode r)
      = rleDecode (r.map (collapseRun maxRepeats)) := by
  cases r with
  | nil => rfl
  | cons p r' =>
    obtain ⟨v, m⟩ := p
    obtain ⟨m', rfl⟩ : ∃ m', m = m' + 1 := by
      have := hpos (v, m) (List.mem_cons_self _ _)
      exact ⟨m - 1, by omega⟩
    have hch := List.chain'_cons'.mp hadj
    have hne' : ∀ q ∈ r'.head?, q.1 ≠ v := fun q hq => (hch.1 q hq).symm
    have hpos' : ∀ q ∈ r', 1 ≤ q.2 := fun q hq => hpos q (List.mem_cons_of_mem _ hq)
    rw [rleDecode, List.replicate_succ, List.cons_append, cleanupRepetitiveCharacters,
      cleanupGo_spec maxRepeats r' hpos' hch.2 v hne' m' 1]
    simp [rleDecode, collapseRun, emitRun_eq, Nat.one_add, List.append_assoc]

theorem cleanup_collapses_runs_witness :
    cleanupRepetitiveCharacters 10 (rleDecode [((97 : Nat), (13 : Nat)), (88, 1)])
        = rleDecode ([((97 : Nat), (13 : Nat)), (88, 1)].map (collapseRun 10))
      ∧ cleanupRepetitiveCharacters 10 (rleDecode [((97 : Nat), (13 : Nat)), (88, 1)])
        = [97, 88]
      ∧ cleanupRepetitiveCharacters 10 (rleDecode [((97 : Nat), (4 : Nat)), (88, 1)])
        = rleDecode ([((97 : Nat), (4 : Nat)), (88, 1)].map (collapseRun 10))
      ∧ cleanupRepetitiveCharacters 10 (rleDecode [((97 : Nat), (4 : Nat)), (88, 1)])
        = [97, 97, 97, 97, 88] :=
  ⟨cleanup_collapses_runs 10 _ (by decide) (by simp [List.chain'_cons]), by decide,
   cleanup_collapses_runs 10 _ (by decide) (by simp [List.chain'_cons]), by decide⟩

/-! ### Retry policy (withRetry, src/utils/retry.ts) -/

/-- The terminal error message
`${context} failed after ${maxAttempts} attempts: ${lastError?.message}`
(`lastError?.message` stringifies to "undefined" when no attempt ran). -/
def terminalMessage (context : String) (maxAttempts : Nat) (lastMsg : Option String) : String :=
  context ++ " failed after " ++ toString maxAttempts ++ " attempts: "
    ++ lastMsg.getD "undefined"

/-- The `for (let attempt = 1; attempt <= maxAttempts; attempt++)` loop of
`withRetry`.  `op i` is the outcome of the `i`-th invocation of `fn`.  The
model returns the overall outcome together with the number of invocations
performed and the list of backoff delays awaited (in ms), in order.  The
first argument counts the remaining loop iterations (`maxAttempts` at
entry), so the base case is the fall-through `throw` after the loop. -/
def retryGo {α : Type} (op : Nat → Except String α) (maxAttempts baseDelayMs : Nat)
    (context : String) :
    Nat → Nat → Option String → Except String α × Nat × List Nat
  | 0, _, lastErr => (Except.error (terminalMessage context maxAttempts lastErr), 0, [])
  | fuel + 1, attempt, _ =>
    match op attempt with
    | Except.ok v => (Except.ok v, 1, [])
    | Except.error e =>
      if attempt < maxAttempts then
        let r := retryGo op maxAttempts baseDelayMs context fuel (attempt + 1) (some e)
        (r.1, r.2.1 + 1, baseDelayMs * 2 ^ (attempt - 1) :: r.2.2)
      else
        (Except.error (terminalMessage context maxAttempts (some e)), 1, [])

/-- `withRetry(fn, maxAttempts = 3, baseDelayMs = 1000, context = 'Operation')`. -/
def withRetry {α : Type} (op : Nat → Except String α) (maxAttempts baseDelayMs : Nat)
    (context : String) : Except String α × Nat × List Nat :=
  retryGo op maxAttempts baseDelayMs context maxAttempts 1 none

lemma terminalMessage_three (ctx e : String) :
    terminalMessage ctx 3 (some e) = ctx ++ " failed after 3 attempts: " ++ e := by
  rw [terminalMessage]
  have hlit : (" failed after " ++ (toString (3 : Nat) ++ " attempts: ") : String)
      = " failed after 3 attempts: " := by decide
  simp only [Option.getD_some, String.append_assoc]
  rw [← String.append_assoc (toString (3 : Nat)) " attempts: " e,
    ← String.append_assoc " failed after " (toString (3 : Nat) ++ " attempts: ") e, hlit]

/-- Claim C5: with `maxAttempts = 3`, when every invocation fails `withRetry`
invokes the operation exactly 3 times, waits `baseDelay * 2^(attempt-1)` ms
after each failed non-final attempt (i.e. `baseDelay`, then `2 * baseDelay`),
and throws a terminal error whose message embeds the attempt count 3 and the
last failure's message; when an attempt succeeds its result is returned and
no further invocation happens. -/
theorem retry_exhaustion_and_success {α : Type} :
    (∀ (op : Nat → Except String α) (base : Nat) (ctx : String) (e1 e2 e3 : String),
      op 1 = Except.error e1 → op 2 = Except.error e2 → op 3 = Except.error e3 →
      withRetry op 3 base ctx
        = (Except.error (ctx ++ " failed after 3 attempts: " ++ e3), 3, [base, base * 2]))
    ∧ (∀ (op : Nat → Except String α) (base : Nat) (ctx : String) (v : α),
        op 1 = Except.ok v →
        withRetry op 3 base ctx = (Except.ok v, 1, []))
    ∧ (∀ (op : Nat → Except String α) (base : Nat) (ctx : String) (e1 : String) (v : α),
        op 1 = Except.error e1 → op 2 = Except.ok v →
        withRetry op 3 base ctx = (Except.ok v, 2, [base]))
    ∧ (∀ (op : Nat → Except String α) (base : Nat) (ctx : String) (e1 e2 : String) (v : α),
        op 1 = Except.error e1 → op 2 = Except.error e2 → op 3 = Except.ok v →
        withRetry op 3 base ctx = (Except.ok v, 3, [base, base * 2])) := by
  refine ⟨fun op base ctx e1 e2 e3 h1 h2 h3 => ?_,
    fun op base ctx v h1 => ?_,
    fun op base ctx e1 v h1 h2 => ?_,
    fun op base ctx e1 e2 v h1 h2 h3 => ?_⟩
  · simp only [withRetry, retryGo, h1, h2, h3]
    norm_num [terminalMessage_three]
  · simp only [withRetry, retryGo, h1]
  · simp only [withRetry, retryGo, h1, h2]
    norm_num
  · simp only [withRetry, retryGo, h1, h2, h3]
    norm_num

theorem retry_exhaustion_witness :
    withRetry (fun _ => (Except.error "boom" : Except String Nat)) 3 1000 "Operation"
        = (Except.error ("Operation" ++ " failed after 3 attempts: " ++ "boom"), 3,
            [1000, 1000 * 2])
      ∧ withRetry (fun i => if i = 1 then (Except.error "x" : Except String Nat)
            else Except.ok 7) 3 1000 "Operation"
        = (Except.ok 7, 2, [1000])
      ∧ ("Operation" ++ " failed after 3 attempts: " ++ "boom"
          = "Operation failed after 3 attempts: boom") :=
  ⟨retry_exhaustion_and_success.1 _ 1000 "Operation" "boom" "boom" "boom" rfl rfl rfl,
   retry_exhaustion_and_success.2.2.1 _ 1000 "Operation" "x" 7 rfl rfl,
   by decide⟩

/-! ### Concurrency limiter (ConcurrencyLimiter) -/

/-- State of `ConcurrencyLimiter` plus bookkeeping: `queue` and `running`
are the class fields (`running` as the list of in-flight task ids, whose
length is the `running` counter); `started` records tasks in the order their
wrapped closures were invoked, `pushed` in the order `run` was called. -/
structure LimState where
  queue : List Nat
  running : List Nat
  started : List Nat
  pushed : List Nat

def limInit : LimState := ⟨[], [], [], []⟩

/-- `processQueue()`: if `running < limit` and the queue is nonempty, shift
the head task and invoke it (the invoked closure immediately increments
`running`). -/
def processQueue (limit : Nat) (s : LimState) : LimState :=
  match s.queue with
  | [] => s
  | t :: rest =>
    if s.running.length < limit then
      { queue := rest, running := s.running ++ [t], started := s.started ++ [t],
        pushed := s.pushed }
    else s

inductive LimEvent where
  | push (id : Nat)
  | finish (id : Nat)

/-- One atomic turn of the single-threaded event loop: `run(fn)` pushes the
wrapped task onto the queue and calls `processQueue`; a settling task (its
`finally` block) decrements `running` and calls `processQueue`.  A `finish`
for a task that is not in flight is a no-op. -/
def limStep (limit : Nat) (s : LimState) : LimEvent → LimState
  | .push t =>
    processQueue limit { s with queue := s.queue ++ [t], pushed := s.pushed ++ [t] }
  | .finish t =>
    if t ∈ s.running then processQueue limit { s with running := s.running.erase t }
    else s

/-- Run the limiter from its initial state over a sequence of events. -/
def limRun (limit : Nat) (evs : List LimEvent) : LimState :=
  evs.foldl (limStep limit) limInit

/-- `Math.max(1, Math.floor(settings.concurrencyLimit ?? 6))` from
`TranscriberService.transcribe`. -/
def effectiveLimit (configured : Option ℚ) : ℤ :=
  max 1 ⌊configured.getD 6⌋

/-- Inductive invariant of the limiter: the in-flight count never exceeds
the ceiling, a task waits in the queue only while the ceiling is saturated,
and tasks start in FIFO submission order (`started ++ queue = pushed`). -/
def LimInv (limit : Nat) (s : LimState) : Prop :=
  s.running.length ≤ limit
    ∧ (s.running.length < limit → s.queue = [])
    ∧ s.started ++ s.queue = s.pushed

lemma limStep_inv (limit : Nat) (s : LimState) (e : LimEvent) (h : LimInv limit s) :
    LimInv limit (limStep limit s e) := by
  obtain ⟨q, r, st, pu⟩ := s
  obtain ⟨h1, h2, h3⟩ := h
  simp only at h1 h2 h3
  cases e with
  | push t =>
    cases hq : q with
    | nil =>
      subst hq
      by_cases hr : r.length < limit
      · simp only [limStep, List.nil_append, processQueue, if_pos hr]
        simp only [List.append_nil] at h3
        exact ⟨by simp; omega, by simp, by simp [h3]⟩
      · simp only [limStep, List.nil_append, processQueue, if_neg hr]
        simp only [List.append_nil] at h3
        exact ⟨h1, fun hlt => absurd hlt hr, by simp [h3]⟩
    | cons a qrest =>
      subst hq
      have hfull : ¬ r.length < limit := fun hlt => List.noConfusion (h2 hlt)
      simp only [limStep, List.cons_append, processQueue, if_neg hfull]
      refine ⟨h1, fun hlt => absurd hlt hfull, ?_⟩
      simp only
      rw [← h3]
      simp
  | finish t =>
    by_cases ht : t ∈ r
    · have hlen : (r.erase t).length = r.length - 1 := List.length_erase_of_mem ht
      have hpos : 1 ≤ r.length := List.length_pos.mpr (by
        intro hnil; rw [hnil] at ht; exact absurd ht (List.not_mem_nil t))
      simp only [limStep, if_pos ht]
      cases hq : q with
      | nil =>
        subst hq
        simp only [processQueue]
        exact ⟨by show (r.erase t).length ≤ limit; omega, fun _ => rfl, h3⟩
      | cons a qrest =>
        subst hq
        have hfull : r.length = limit := by
          by_contra hne
          exact List.noConfusion (h2 (by omega))
        simp only [processQueue, if_pos (show (r.erase t).length < limit by omega)]
        refine ⟨by simp [hlen]; omega, ?_, ?_⟩
        · intro hlt
          exfalso
          simp [hlen] at hlt
          omega
        · simp only
          rw [← h3]
          simp
    · simp only [limStep, if_neg ht]
      exact ⟨h1, h2, h3⟩

lemma limRun_inv (limit : Nat) (evs : List LimEvent) : LimInv limit (limRun limit evs) := by
  rw [limRun]
  have hgen : ∀ (l : List LimEvent) (s : LimState), LimInv limit s →
      LimInv limit (l.foldl (limStep limit) s) := by
    intro l
    induction l with
    | nil => intro s hs; exact hs
    | cons e l ih =>
      intro s hs
      rw [List.foldl_cons]
      exact ih _ (limStep_inv limit s e hs)
  exact hgen evs limInit ⟨by simp [limInit], by simp [limInit], by simp [limInit]⟩

/-- Claim C6: for every event sequence and ceiling ≥ 1, the number of tasks
in flight never exceeds the ceiling, queued tasks are started in FIFO
submission order (the started order followed by the still-queued tasks is
exactly the submission order), once all in-flight tasks have settled no task
is left unstarted, and the effective ceiling is `max(1, floor(configured))`,
defaulting to 6 when unset. -/
theorem limiter_ceiling_fifo (limit : Nat) (evs : List LimEvent) (hl : 1 ≤ limit) :
    (limRun limit evs).running.length ≤ limit
      ∧ (limRun limit evs).started ++ (limRun limit evs).queue = (limRun limit evs).pushed
      ∧ ((limRun limit evs).running = [] → (limRun limit evs).queue = [])
      ∧ effectiveLimit none = 6 ∧ (∀ c, 1 ≤ effectiveLimit c) := by
  obtain ⟨h1, h2, h3⟩ := limRun_inv limit evs
  refine ⟨h1, h3, fun hr => h2 (by rw [hr]; simpa using hl), ?_, fun c => le_max_left 1 _⟩
  rw [effectiveLimit]
  norm_num

theorem limiter_ceiling_fifo_witness :
    ((limRun 2 [.push 0, .push 1, .push 2, .finish 0, .finish 1, .finish 2]).running.length ≤ 2
      ∧ (limRun 2 [.push 0, .push 1, .push 2, .finish 0, .finish 1, .finish 2]).started
          ++ (limRun 2 [.push 0, .push 1, .push 2, .finish 0, .finish 1, .finish 2]).queue
        = (limRun 2 [.push 0, .push 1, .push 2, .finish 0, .finish 1, .finish 2]).pushed
      ∧ ((limRun 2 [.push 0, .push 1, .push 2, .finish 0, .finish 1, .finish 2]).running = [] →
          (limRun 2 [.push 0, .push 1, .push 2, .finish 0, .finish 1, .finish 2]).queue = [])
      ∧ effectiveLimit none = 6 ∧ (∀ c, 1 ≤ effectiveLimit c))
      ∧ (limRun 2 [.push 0, .push 1, .push 2, .finish 0, .finish 1, .finish 2]).started
          = [0, 1, 2] :=
  ⟨limiter_ceiling_fifo 2 [.push 0, .push 1, .push 2, .finish 0, .finish 1, .finish 2]
      (by decide),
   by decide⟩

/-! ### Transcript assembly (TranscriberService.transcribe) -/

/-- Key order realized by the comparator `(a, b) => a.index - b.index`. -/
def idxLe (a b : Nat × String) : Prop := a.1 ≤ b.1

instance : DecidableRel idxLe := fun a b => inferInstanceAs (Decidable (a.1 ≤ b.1))

instance : IsTotal (Nat × String) idxLe := ⟨fun a b => Nat.le_total a.1 b.1⟩

instance : IsTrans (Nat × String) idxLe := ⟨fun _ _ _ h1 h2 => Nat.le_trans h1 h2⟩

/-- `results.sort((a, b) => a.index - b.index)`: sort the `{index, text}`
results by index ascending. -/
def sortByIndex (rs : List (Nat × String)) : List (Nat × String) :=
  List.insertionSort idxLe rs

/-- `sortedTranscriptions.map(r => r.text).join(' ')`: texts in index order,
joined with a single space. -/
def assemble (rs : List (Nat × String)) : String :=
  String.intercalate " " ((sortByIndex rs).map Prod.snd)

/-- Strict key order, used to show sortedness determines the list when the
keys are distinct. -/
def idxLt (a b : Nat × String) : Prop := a.1 < b.1

instance : IsAntisymm (Nat × String) idxLt :=
  ⟨fun a b h1 h2 => absurd (Nat.lt_trans h1 h2) (Nat.lt_irrefl _)⟩

lemma sorted_nodup_unique {l₁ l₂ : List (Nat × String)} (hp : l₁.Perm l₂)
    (hs₁ : l₁.Sorted idxLe) (hs₂ : l₂.Sorted idxLe)
    (hnd : (l₁.map Prod.fst).Nodup) : l₁ = l₂ := by
  have hnd₂ : (l₂.map Prod.fst).Nodup := (hp.map Prod.fst).nodup hnd
  have key : ∀ (l : List (Nat × String)), l.Sorted idxLe → (l.map Prod.fst).Nodup →
      l.Sorted idxLt := by
    intro l hs hn
    have hpn : l.Pairwise (fun a b : Nat × String => a.1 ≠ b.1) :=
      List.pairwise_map.mp hn
    exact (hs.and hpn).imp fun h => Nat.lt_of_le_of_ne h.1 h.2
  exact List.eq_of_perm_of_sorted hp (key l₁ hs₁ hnd) (key l₂ hs₂ hnd₂)

/-- Claim C7: for results whose indices are exactly `0..N-1` with no
duplicates, assembly (sort by index ascending, join texts with a single
space) produces the same string for every arrival order of the same
results. -/
theorem assemble_order_independent (rs1 rs2 : List (Nat × String)) (N : Nat)
    (hperm : rs1.Perm rs2) (hidx : (rs1.map Prod.fst).Perm (List.range N)) :
    assemble rs1 = assemble rs2 := by
  have hnd : (rs1.map Prod.fst).Nodup := hidx.symm.nodup (List.nodup_range N)
  have hs1 : (sortByIndex rs1).Sorted idxLe := List.sorted_insertionSort idxLe rs1
  have hs2 : (sortByIndex rs2).Sorted idxLe := List.sorted_insertionSort idxLe rs2
  have hp : (sortByIndex rs1).Perm (sortByIndex rs2) :=
    ((List.perm_insertionSort idxLe rs1).trans hperm).trans
      (List.perm_insertionSort idxLe rs2).symm
  have hnd1 : ((sortByIndex rs1).map Prod.fst).Nodup :=
    (((List.perm_insertionSort idxLe rs1).map Prod.fst).symm).nodup hnd
  have hsorteq := sorted_nodup_unique hp hs1 hs2 hnd1
  rw [assemble, assemble, hsorteq]

theorem assemble_order_independent_witness :
    assemble [(1, "b"), (0, "a")] = assemble [(0, "a"), (1, "b")]
      ∧ assemble [(1, "b"), (0, "a")] = "a b" :=
  ⟨assemble_order_independent [(1, "b"), (0, "a")] [(0, "a"), (1, "b")] 2
      (List.Perm.swap _ _ _) (List.Perm.swap _ _ _),
   by decide⟩

/-! ### Recording timer (RecorderService) -/

/-- `mediaRecorder.state` for an existing recorder. -/
inductive MState where
  | recording
  | paused
  | inactive
deriving DecidableEq

/-- Timing-relevant state of `RecorderService`: the `startTime`, `pauseTime`,
`totalPausedTime` and `finalElapsed` fields, the media recorder (`none`
models `mediaRecorder === null`), and whether `stopPromise` is installed.
Timestamps are `Date.now()` values in milliseconds. -/
structure RecState where
  startTime : ℚ
  pauseTime : ℚ
  totalPausedTime : ℚ
  finalElapsed : Option ℚ
  media : Option MState
  hasStopPromise : Bool

def recInit : RecState :=
  { startTime := 0, pauseTime := 0, totalPausedTime := 0, finalElapsed := none,
    media := none, hasStopPromise := false }

/-- `start()` at time `now`: clears the accumulated pause time, records the
start timestamp, starts the media recorder and installs the stop promise. -/
def recStart (now : ℚ) (s : RecState) : RecState :=
  { s with
    totalPausedTime := 0,
    startTime := now,
    media := some MState.recording,
    hasStopPromise := true }

/-- `pause()` at time `now`: acts only while actively recording; records the
pause timestamp, leaving `totalPausedTime` untouched. -/
def recPause (now : ℚ) (s : RecState) : RecState :=
  if s.media = some MState.recording then
    { s with media := some MState.paused, pauseTime := now }
  else s

/-- `resume()` at time `now`: acts only while paused; accumulates the closed
pause interval into `totalPausedTime`. -/
def recResume (now : ℚ) (s : RecState) : RecState :=
  if s.media = some MState.paused then
    { s with
      media := some MState.recording,
      totalPausedTime := s.totalPausedTime + (now - s.pauseTime) }
  else s

/-- `getElapsed()` at time `now`, in seconds. -/
def getElapsed (now : ℚ) (s : RecState) : ℚ :=
  match s.finalElapsed with
  | some v => v
  | none =>
    if s.startTime = 0 then 0
    else if s.media = some MState.paused then
      (s.pauseTime - s.startTime - s.totalPausedTime) / 1000
    else (now - s.startTime - s.totalPausedTime) / 1000

/-- The synchronous first half of `stop()` at time `now` (before awaiting
the stop promise): store `finalElapsed = getElapsed()` and stop the media
recorder.  Without a stop promise this is the defensive no-op path that
returns an empty result. -/
def recStopBegin (now : ℚ) (s : RecState) : RecState :=
  if s.hasStopPromise then
    { s with finalElapsed := some (getElapsed now s), media := some MState.inactive }
  else s

/-- The `durationMs / 1000` the `onstop` handler puts into the
`RecordingResult` when it fires at time `now`:
`(Date.now() - this.startTime - this.totalPausedTime) / 1000`. -/
def stopDuration (now : ℚ) (s : RecState) : ℚ :=
  (now - s.startTime - s.totalPausedTime) / 1000

/-- The tail of `stop()` after the stop promise resolves: the recorder and
every timing field, `finalElapsed` included, are reset for the next
recording. -/
def recStopComplete (_s : RecState) : RecState := recInit

/-- Claim C9, counterexample: start at t=1000 ms, stop at t=6000 ms (elapsed
5 s, which `getElapsed` reports while the stop is in flight); once `stop()`
completes it resets `finalElapsed` and `startTime`, so `getElapsed` reports
0 — not the frozen final value 5 — before any new `start`. -/
theorem getElapsed_after_stop_counterexample :
    getElapsed 9000 (recStopComplete (recStopBegin 6000 (recStart 1000 recInit))) = 0
      ∧ getElapsed 7000 (recStopBegin 6000 (recStart 1000 recInit)) = 5
      ∧ (0 : ℚ) ≠ 5 := by
  refine ⟨?_, ?_, by norm_num⟩
  · norm_num [getElapsed, recStopComplete, recInit]
  · norm_num [getElapsed, recStopBegin, recStart, recInit]
    decide

/-- Claim C9, amended: while Recording (no final value stored, nonzero start
timestamp) `getElapsed` returns `(now - startTime - totalPausedTime)/1000`;
while Paused it returns the value frozen at the pause timestamp,
independent of `now`; from the moment `stop()` runs until its asynchronous
completion it returns the value frozen when `stop()` was called; once
`stop()` completes, the state is reset and `getElapsed` returns 0 (not the
frozen final value) until the next `start`. -/
theorem getElapsed_behavior :
    (∀ (s : RecState) (now : ℚ), s.finalElapsed = none → s.startTime ≠ 0 →
        s.media = some MState.recording →
        getElapsed now s = (now - s.startTime - s.totalPausedTime) / 1000)
      ∧ (∀ (s : RecState) (now : ℚ), s.finalElapsed = none → s.startTime ≠ 0 →
          s.media = some MState.paused →
          getElapsed now s = (s.pauseTime - s.startTime - s.totalPausedTime) / 1000)
      ∧ (∀ (s : RecState) (now nowLater : ℚ), s.hasStopPromise = true →
          getElapsed nowLater (recStopBegin now s) = getElapsed now s)
      ∧ (∀ (s : RecState) (now : ℚ), getElapsed now (recStopComplete s) = 0) := by
  refine ⟨fun s now hfe hst hm => ?_, fun s now hfe hst hm => ?_,
    fun s now nowLater hsp => ?_, fun s now => ?_⟩
  · rw [getElapsed, hfe, if_neg hst, if_neg (by rw [hm]; intro hc; cases hc)]
  · rw [getElapsed, hfe, if_neg hst, if_pos hm]
  · rw [recStopBegin, if_pos hsp, getElapsed]
  · norm_num [getElapsed, recStopComplete, recInit]

theorem getElapsed_behavior_witness :
    getElapsed 3500 (recStart 1000 recInit)
        = (3500 - (recStart 1000 recInit).startTime
            - (recStart 1000 recInit).totalPausedTime) / 1000
      ∧ getElapsed 9999 (recPause 2000 (recStart 1000 recInit))
        = ((recPause 2000 (recStart 1000 recInit)).pauseTime
            - (recPause 2000 (recStart 1000 recInit)).startTime
            - (recPause 2000 (recStart 1000 recInit)).totalPausedTime) / 1000
      ∧ getElapsed 8000 (recStopBegin 6000 (recStart 1000 recInit))
        = getElapsed 6000 (recStart 1000 recInit)
      ∧ getElapsed 4000 (recStopComplete (recStart 1000 recInit)) = 0 :=
  ⟨getElapsed_behavior.1 (recStart 1000 recInit) 3500 rfl (by norm_num [recStart, recInit]) rfl,
   getElapsed_behavior.2.1 (recPause 2000 (recStart 1000 recInit)) 9999 rfl
     (by norm_num [recPause, recStart, recInit]) rfl,
   getElapsed_behavior.2.2.1 (recStart 1000 recInit) 6000 8000 (by rfl),
   getElapsed_behavior.2.2.2 (recStart 1000 recInit) 4000⟩

/-- Claim C10: if `stop()` is called at `t2` while the recorder is paused
since `t1` (the pause interval still open), the duration in the returned
`RecordingResult` is `(t2 - startTime - totalPausedTime)/1000` where
`totalPausedTime` excludes the open pause interval (`pause` leaves it
untouched), so the final pause period is counted in the reported duration,
which strictly exceeds the frozen value `getElapsed` reports while paused. -/
theorem stop_while_paused_duration (s : RecState) (t1 t2 tq : ℚ)
    (hrec : s.media = some MState.recording) (hfe : s.finalElapsed = none)
    (hst : s.startTime ≠ 0) (h12 : t1 < t2) :
    stopDuration t2 (recPause t1 s) = (t2 - s.startTime - s.totalPausedTime) / 1000
      ∧ (recPause t1 s).totalPausedTime = s.totalPausedTime
      ∧ getElapsed tq (recPause t1 s) = (t1 - s.startTime - s.totalPausedTime) / 1000
      ∧ getElapsed tq (recPause t1 s) < stopDuration t2 (recPause t1 s) := by
  have hpause : recPause t1 s
      = { s with media := some .paused, pauseTime := t1 } := by
    rw [recPause, if_pos hrec]
  rw [hpause]
  refine ⟨rfl, rfl, ?_, ?_⟩
  · simp [getElapsed, hfe, hst]
  · have hgoal : getElapsed tq
        { s with media := some MState.paused, pauseTime := t1 }
          = (t1 - s.startTime - s.totalPausedTime) / 1000 := by
      simp [getElapsed, hfe, hst]
    rw [hgoal, stopDuration]
    exact (div_lt_div_iff_of_pos_right (by norm_num : (0 : ℚ) < 1000)).mpr (by linarith)

theorem stop_while_paused_duration_witness :
    stopDuration 3500 (recPause 2000 (recStart 1000 recInit))
        = (3500 - (recStart 1000 recInit).startTime
            - (recStart 1000 recInit).totalPausedTime) / 1000
      ∧ (recPause 2000 (recStart 1000 recInit)).totalPausedTime
        = (recStart 1000 recInit).totalPausedTime
      ∧ getElapsed 9999 (recPause 2000 (recStart 1000 recInit))
        = (2000 - (recStart 1000 recInit).startTime
            - (recStart 1000 recInit).totalPausedTime) / 1000
      ∧ getElapsed 9999 (recPause 2000 (recStart 1000 recInit))
        < stopDuration 3500 (recPause 2000 (recStart 1000 recInit)) :=
  stop_while_paused_duration (recStart 1000 recInit) 2000 3500 9999 rfl rfl
    (by norm_num [recStart, recInit]) (by norm_num)

end AIT
